import Mathlib

/-
Verification of the go-source-server resolution and matching engine.

The development shallowly embeds the Go source of the server:
 - `resolveImportPath` (with its helpers) embeds the path-spec resolver,
 - `locate` embeds the file-locator walk of `writeSourceGo`,
 - `SourceSpec.writeContent` embeds the revision-dispatch logic,
 - `writeStdLibGo` embeds the standard-library read (with its unchecked
   `os.Open` error),
 - `writeSourceGo` / `handleSourceGo` embed the module download path and
   the HTTP handler.

Go byte strings are modelled as Lean `String`s operated on through their
character lists; all the separators and markers involved (`/`, `@`, `.`)
are ASCII, and UTF-8 is self-synchronizing, so Go's byte-index arithmetic
agrees with character-index arithmetic at every step the code performs.
-/

/-! ### String helpers mirroring the Go standard library -/

/-- Embeds `strings.Split(s, "/")` (single-character separator). -/
def splitOnChar (sep : Char) : List Char → List (List Char)
  | [] => [[]]
  | c :: rest =>
    match splitOnChar sep rest with
    | [] => [[]]
    | h :: t => if c = sep then [] :: h :: t else (c :: h) :: t

/-- Embeds `strings.Split(s, "/")` on strings. -/
def splitSlash (s : String) : List String :=
  (splitOnChar '/' s.data).map String.mk

/-- Embeds `strings.Join(l, "/")`. -/
def joinSlash : List String → String
  | [] => ""
  | [s] => s
  | s :: rest => s ++ ("/" ++ joinSlash rest)

/-- Embeds `strings.HasPrefix(s, "/")`. -/
def startsWithSlash (s : String) : Bool :=
  match s.data with
  | [] => false
  | c :: _ => c = '/'

/-- Embeds `strings.Contains(s, string(c))` for a single character needle. -/
def containsChar (s : String) (c : Char) : Bool :=
  decide (c ∈ s.data)

/-- Embeds `strings.HasSuffix(s, suf)`. -/
def hasSuffix (s suf : String) : Bool :=
  suf.data.isSuffixOf s.data

/-- Embeds the Go slice `s[i:]` (suffix from index `i`). -/
def strFrom (s : String) (i : Nat) : String :=
  String.mk (s.data.drop i)

/-- Embeds the Go slice `s[:i]` (prefix up to index `i`). -/
def strTake (s : String) (i : Nat) : String :=
  String.mk (s.data.take i)

/-- Embeds the Go slice `s[a:b]`. -/
def strSub (s : String) (a b : Nat) : String :=
  String.mk ((s.data.take b).drop a)

/-- Embeds `s[pos+1:]` where `pos = strings.LastIndex(s, "@")`: the substring
after the last `'@'`.  Used only under the guard that `s` contains `'@'`. -/
def afterLastAt (s : String) : String :=
  String.mk ((s.data.reverse.takeWhile (fun c => c ≠ '@')).reverse)

/-- Embeds `s[:pos]` where `pos = strings.LastIndex(s, "@")`: the substring
before the last `'@'`.  Used only under the guard that `s` contains `'@'`. -/
def beforeLastAt (s : String) : String :=
  String.mk (((s.data.reverse.dropWhile (fun c => c ≠ '@')).drop 1).reverse)

/-- Embeds `strings.Index(functionParts[last], ".")` followed by the
truncation `functionParts[last][:posDot]`: everything before the first `'.'`,
or the whole string when there is none (the `posDot >= 0` guard). -/
def beforeFirstDot (s : String) : String :=
  String.mk (s.data.takeWhile (fun c => c ≠ '.'))

/-- Scan for the last occurrence of `sub` in `s`, trying start positions
`k, k-1, ..., 0`.  Helper for `lastIndexOfStr`. -/
def lastIndexAux (s sub : List Char) : Nat → Option Nat
  | 0 => if sub.isPrefixOf s then some 0 else none
  | k + 1 =>
    if sub.isPrefixOf (s.drop (k + 1)) then some (k + 1)
    else lastIndexAux s sub k

/-- Embeds `strings.LastIndex(s, sub)`; `none` models the `-1` result. -/
def lastIndexOfStr (s sub : String) : Option Nat :=
  lastIndexAux s.data sub.data s.data.length

/-- Scan for the first occurrence of `sub`, position counting from `i`.
Helper for `firstIndexOfStr`. -/
def firstIndexAux (sub : List Char) : List Char → Nat → Option Nat
  | [], i => if sub.isPrefixOf ([] : List Char) then some i else none
  | c :: t, i => if sub.isPrefixOf (c :: t) then some i else firstIndexAux sub t (i + 1)

/-- Embeds `strings.Index(s, sub)`; `none` models the `-1` result. -/
def firstIndexOfStr (s sub : String) : Option Nat :=
  firstIndexAux sub.data s.data 0

/-- First index of the list whose element satisfies `p`; embeds the
`for idx := range pathParts` scan of the resolver. -/
def findAtIdx (p : String → Bool) : List String → Option Nat
  | [] => none
  | a :: l => if p a then some 0 else (findAtIdx p l).map (fun k => k + 1)

/-! ### The path-spec resolver (`resolveImportPath` of the source) -/

/-- Embeds the Go struct `SourceSpec` (fields in source order). -/
structure SourceSpec where
  Repo : String
  RelativePath : String
  Revision : String
  deriving Repr, DecidableEq

/-- Outcome of `resolveImportPath`.  `errFunctionEmpty` is the
`AmbiguousInputError` ("function is empty ..."); `panicSliceOutOfRange`
models the Go runtime panic raised by `pathParts[startIndex:]` when
`startIndex` is negative. -/
inductive ResolveResult where
  | ok (spec : SourceSpec)
  | errFunctionEmpty
  | panicSliceOutOfRange
  deriving Repr, DecidableEq

/-- Embeds lines 136-143 of the resolver: split the symbol on `"/"` and
truncate its last part at the first `'.'`. -/
def stripFunctionName (parts : List String) : List String :=
  parts.set (parts.length - 1) (beforeFirstDot (parts.getLastD ""))

/-- Embeds the final two steps of `resolveImportPath` (lines 153-167):
hosted-repository reconstruction and relative-path computation.  The Go
guard `spec.Repo == ""` always holds on entry (the repo field is only
assigned on the early direct-form return), so it is not repeated here. -/
def resolveTail (pathParts functionParts : List String)
    (revision relativePath : String) : ResolveResult :=
  let repo :=
    if 3 ≤ functionParts.length then joinSlash (functionParts.take 3) else ""
  let fparts :=
    if 3 ≤ functionParts.length then functionParts.drop 3 else functionParts
  if relativePath = "" then
    if pathParts.length < fparts.length + 1 then
      .panicSliceOutOfRange
    else
      .ok ⟨repo, joinSlash (pathParts.drop (pathParts.length - fparts.length - 1)), revision⟩
  else
    .ok ⟨repo, relativePath, revision⟩

/-- Embeds lines 132-151 of `resolveImportPath`: the empty-symbol failure,
symbol parsing, and the standard-library branch. -/
def resolveAfterScan (function path : String) (pathParts : List String)
    (revision relativePath : String) : ResolveResult :=
  if function = "" then
    .errFunctionEmpty
  else
    let functionParts := stripFunctionName (splitSlash function)
    let fp0 := functionParts.headD ""
    if containsChar fp0 '.' = false then
      match lastIndexOfStr path fp0 with
      | some pos => .ok ⟨"", strFrom path pos, ""⟩
      | none => resolveTail pathParts functionParts revision relativePath
    else
      resolveTail pathParts functionParts revision relativePath

/-- Embeds `resolveImportPath` (lines 108-168 of the source): the
version-marker scan with the direct-form early return, then the
symbol-driven steps. -/
def resolveImportPath (function path : String) : ResolveResult :=
  let pathParts := splitSlash path
  match findAtIdx (fun s => containsChar s '@') pathParts with
  | some idx =>
    let seg := pathParts.getD idx ""
    let revision := afterLastAt seg
    let pathParts2 := pathParts.set idx (beforeLastAt seg)
    let relativePath := joinSlash (pathParts2.drop (idx + 1))
    if startsWithSlash path = false then
      .ok ⟨joinSlash (pathParts2.take (idx + 1)), relativePath, revision⟩
    else
      resolveAfterScan function path pathParts2 revision relativePath
  | none => resolveAfterScan function path pathParts "" ""

/-! ### The file locator (walk inside `writeSourceGo` of `main.go`) -/

/-- Embeds the per-file body of the `filepath.WalkDir` callback
(lines 157-162 of `main.go`): a raw `strings.HasSuffix` check and the
strict longest-so-far update of `foundFile`. -/
def locateStep (sourcePath foundFile relPath : String) : String :=
  if hasSuffix sourcePath relPath then
    if foundFile.length < relPath.length then relPath else foundFile
  else foundFile

/-- Embeds the whole walk plus the `foundFile == ""` check (lines 147-171
of `main.go`).  `files` is the sequence of root-relative paths of the
regular files under the walked directory, in walk order; `none` models the
`io.EOF` not-found failure. -/
def locate (files : List String) (sourcePath : String) : Option String :=
  let foundFile := files.foldl (fun acc rel => locateStep sourcePath acc rel) ""
  if foundFile = "" then none else some foundFile

/-! ### Content writing (`SourceSpec.writeContent`, `writeStdLibGo`) -/

/-- The external write performed by `writeContent`: either the
standard-library read or the module download + read. -/
inductive WriteAction where
  | stdlib (relativePath : String)
  | source (repo revision relativePath : String)
  deriving Repr, DecidableEq

/-- Embeds `SourceSpec.writeContent` (lines 90-106): dispatch on an empty
repo, and the revision defaulting chain. -/
def SourceSpec.writeContent (s : SourceSpec) (revision : String) : WriteAction :=
  if s.Repo = "" then
    .stdlib s.RelativePath
  else
    let rev := s.Revision
    let rev := if rev = "" then revision else rev
    let rev := if rev = "" then "latest" else rev
    .source s.Repo rev s.RelativePath

/-- Error values observable from `writeStdLibGo`.  `goRootFail` is the
`go env GOROOT` failure; `notExist` models the `os.Open` error for a
missing file; `invalid` models `os.ErrInvalid`, which is what reading a
nil `*os.File` reports. -/
inductive StdErr where
  | goRootFail
  | notExist
  | invalid
  deriving Repr, DecidableEq

/-- Embeds `os.Open`: on success a valid handle carrying the file bytes
and a nil error, on failure a nil handle (`none`) together with the
not-exist error. -/
def osOpen (fs : String → Option (List Nat)) (p : String) :
    Option (List Nat) × Option StdErr :=
  match fs p with
  | some c => (some c, none)
  | none => (none, some .notExist)

/-- Embeds `io.Copy(w, f)` from an `*os.File`: a valid handle copies its
bytes; a nil handle makes `(*os.File).Read` return `os.ErrInvalid`. -/
def ioCopy : Option (List Nat) → Except StdErr (List Nat)
  | some c => .ok c
  | none => .error .invalid

/-- Embeds `strings.TrimSpace`. -/
def trimSpaceStr (s : String) : String :=
  String.mk (((s.data.dropWhile Char.isWhitespace).reverse.dropWhile Char.isWhitespace).reverse)

/-- Embeds `writeStdLibGo` (lines 170-187).  `goRootOut` is the output of
`go env GOROOT` (`none` = command failed); `fs` is the local filesystem.
`filepath.Join` is modelled as `"/"`-concatenation.  Note that, exactly as
in the source, the error component of `osOpen` is never inspected: the
open result's handle goes straight to `ioCopy`. -/
def writeStdLibGo (goRootOut : Option String) (fs : String → Option (List Nat))
    (sourcePath : String) : Except StdErr (List Nat) :=
  match goRootOut with
  | none => .error .goRootFail
  | some out =>
    let p := trimSpaceStr out ++ "/src/" ++ sourcePath
    let fh := osOpen fs p
    ioCopy fh.1

/-! ### Module download path and HTTP handler (`main.go`) -/

/-- Outcome of `writeSourceGo`: the bytes written on success, or one of the
failure modes.  `errDownload` collapses the two download failures of the
source (JSON unmarshal error and wrapped exit error); `errNotFound` is the
`io.EOF` returned when no walked file matches; `panicSlice` models the Go
runtime panic of the slice `depPath[posAt+1:posEnd]` when `posEnd < posAt+1`;
`outOfFuel` is an artifact of the fuel-indexed recursion and is unreachable
from `writeSourceGo` (each recursive call strictly shortens `sourcePath`). -/
inductive WriteOutcome where
  | ok (written : List Nat)
  | errDownload
  | errNotFound
  | errOpen
  | panicSlice
  | outOfFuel
  deriving Repr, DecidableEq

/-- The `"/pkg/mod/"` marker of `writeSourceGo`. -/
def pkgModPath : String := "/pkg/mod/"

/-- First-match association lookup; embeds `os.Open(filepath.Join(dir,
foundFile))` reading back a file produced by the walk. -/
def lookupFile : List (String × List Nat) → String → Option (List Nat)
  | [], _ => none
  | (p, c) :: rest, q => if p = q then some c else lookupFile rest q

/-- Embeds the download-and-serve tail of `writeSourceGo` (lines 108-183
of `main.go`): run `go mod download`, walk the module directory, pick the
longest suffix match, open and copy it.  `download repo revision` returns
the walked snapshot as `(relative path, bytes)` pairs in walk order, or
`none` when the download step fails. -/
def moduleDownloadPart (download : String → String → Option (List (String × List Nat)))
    (repo revision sourcePath : String) : WriteOutcome :=
  match download repo revision with
  | none => .errDownload
  | some files =>
    match locate (files.map Prod.fst) sourcePath with
    | none => .errNotFound
    | some foundFile =>
      match lookupFile files foundFile with
      | some content => .ok content
      | none => .errOpen

/-- Fuel-indexed embedding of `writeSourceGo` (lines 85-184 of `main.go`),
including the self-referential `"/pkg/mod/"` rewriting step. -/
def writeSourceGoFuel (download : String → String → Option (List (String × List Nat))) :
    Nat → String → String → String → WriteOutcome
  | 0, _, _, _ => .outOfFuel
  | fuel + 1, repo, revision, sourcePath =>
    match firstIndexOfStr sourcePath pkgModPath with
    | some i =>
      if 0 < i then
        let depPath := strFrom sourcePath (pkgModPath.length + i)
        match firstIndexOfStr depPath "@" with
        | some posAt =>
          if 0 < posAt then
            match firstIndexOfStr (strFrom depPath posAt) "/" with
            | some k =>
              let posEnd := posAt + k
              if 0 < posEnd then
                writeSourceGoFuel download fuel (strTake depPath posAt)
                  (strSub depPath (posAt + 1) posEnd) (strFrom depPath posEnd)
              else
                moduleDownloadPart download repo revision sourcePath
            | none =>
              if 1 < posAt then .panicSlice
              else moduleDownloadPart download repo revision sourcePath
          else
            moduleDownloadPart download repo revision sourcePath
        | none => moduleDownloadPart download repo revision sourcePath
      else
        moduleDownloadPart download repo revision sourcePath
    | none => moduleDownloadPart download repo revision sourcePath

/-- `writeSourceGo` with enough fuel for its strictly shrinking recursion. -/
def writeSourceGo (download : String → String → Option (List (String × List Nat)))
    (repo revision sourcePath : String) : WriteOutcome :=
  writeSourceGoFuel download (sourcePath.data.length + 1) repo revision sourcePath

/-- ASCII bytes of a string, for response bodies. -/
def strBytes (s : String) : List Nat :=
  s.data.map Char.toNat

/-- An HTTP response: status code and accumulated body bytes. -/
structure HttpResponse where
  status : Nat
  body : List Nat
  deriving Repr, DecidableEq

/-- Embeds `http.Error(w, msg, status)`. -/
def httpError (msg : String) (status : Nat) : HttpResponse :=
  ⟨status, strBytes (msg ++ "\n")⟩

/-- Embeds `handleSourceGo` of `main.go` (lines 186-215): query-parameter
validation, the `"latest"` default, the call to `writeSourceGo`, and the
trailing `fmt.Fprintf(w, "hello\n")` executed on the success path. -/
def handleSourceGo (download : String → String → Option (List (String × List Nat)))
    (repo revision path : String) : HttpResponse :=
  if repo = "" then httpError "missing repo" 400
  else if path = "" then httpError "missing path" 400
  else
    let revision := if revision = "" then "latest" else revision
    match writeSourceGo download repo revision path with
    | .ok written => ⟨200, written ++ strBytes ("hello" ++ "\n")⟩
    | _ => httpError "error receiving source code" 500

/-- The condition under which `resolveImportPath` returns through its
standard-library branch (derived from the source's control flow): the
direct form did not short-circuit, the symbol is present, its first
stripped qualifier part has no `'.'`, and that part occurs in the path. -/
def stdlibBranch (function path : String) : Bool :=
  !((splitSlash path).any (fun s => containsChar s '@') && !(startsWithSlash path)) &&
  !(function == "") &&
  !(containsChar ((stripFunctionName (splitSlash function)).headD "") '.') &&
  (lastIndexOfStr path ((stripFunctionName (splitSlash function)).headD "")).isSome

/-- Modelled from the spec (section 4.1 step 4): "find the last occurrence
of that first qualifier part as a path segment within `rawPath`, and set
`RelativePath` to everything from that segment onward".  This is the
spec's segment-aligned reading, stated for comparison with the raw
`strings.LastIndex` behaviour of the source. -/
def specStdlibRelPath (path fp0 : String) : Option String :=
  match (splitSlash path).reverse.findIdx? (fun s => s = fp0) with
  | some k =>
    some (joinSlash ((splitSlash path).drop ((splitSlash path).length - 1 - k)))
  | none => none

example : resolveImportPath "runtime.gopark" "/go/src/runtime/proc.go" =
    .ok ⟨"", "runtime/proc.go", ""⟩ := by decide

example : resolveImportPath "" "github.com/aws/aws-sdk-go@v1.44.163/aws/endpoints/defaults.go" =
    .ok ⟨"github.com/aws/aws-sdk-go", "aws/endpoints/defaults.go", "v1.44.163"⟩ := by decide

example : resolveImportPath "sigs.k8s.io/controller-runtime/pkg/internal/controller.(*Controller).processNextWorkItem"
    "sigs.k8s.io/controller-runtime@v0.13.1/pkg/internal/controller/controller.go" =
    .ok ⟨"sigs.k8s.io/controller-runtime", "pkg/internal/controller/controller.go", "v0.13.1"⟩ := by decide

example : resolveImportPath "github.com/grafana/phlare/pkg/phlaredb.(*profileStore).cutRowGroup"
    "/home/runner/work/phlare/phlare/pkg/phlaredb/profile_store.go" =
    .ok ⟨"github.com/grafana/phlare", "pkg/phlaredb/profile_store.go", ""⟩ := by decide

example : resolveImportPath "github.com/felixge/httpsnoop.(*Metrics).CaptureMetrics"
    "/home/runner/go/pkg/mod/github.com/felixge/httpsnoop@v1.0.3/capture_metrics.go" =
    .ok ⟨"github.com/felixge/httpsnoop", "capture_metrics.go", "v1.0.3"⟩ := by decide

example : resolveImportPath "" "some/bare/relative/path.go" = .errFunctionEmpty := by decide

example : resolveImportPath "compress/gzip.(*Writer).Reset" "/opt/go/x64/src/compress/gzip/gzip.go" =
    .ok ⟨"", "compress/gzip/gzip.go", ""⟩ := by decide

/-! ### Helper lemmas -/

theorem str_eq_empty_iff (s : String) : s = "" ↔ s.data = [] := by
  constructor
  · intro h
    rw [h]
  · intro h
    exact String.ext (by rw [h])

theorem str_length_pos_of_ne (s : String) (h : s ≠ "") : 0 < s.length := by
  have hd : s.data ≠ [] := fun hc => h ((str_eq_empty_iff s).mpr hc)
  have : s.length = s.data.length := rfl
  rw [this]
  exact List.length_pos.mpr hd

theorem joinSlash_cons_cons (s b : String) (t : List String) :
    joinSlash (s :: b :: t) = s ++ ("/" ++ joinSlash (b :: t)) := rfl

theorem length_le_joinSlash (x : String) (l : List String) (hx : x ∈ l) :
    x.length ≤ (joinSlash l).length := by
  induction l with
  | nil => cases hx
  | cons a t ih =>
    cases t with
    | nil =>
      rcases List.mem_cons.mp hx with rfl | h
      · exact Nat.le_refl _
      · cases h
    | cons b t2 =>
      rw [joinSlash_cons_cons, String.length_append, String.length_append]
      rcases List.mem_cons.mp hx with rfl | h
      · exact Nat.le_add_right _ _
      · calc x.length ≤ (joinSlash (b :: t2)).length := ih h
          _ ≤ "/".length + (joinSlash (b :: t2)).length := Nat.le_add_left _ _
          _ ≤ a.length + ("/".length + (joinSlash (b :: t2)).length) := Nat.le_add_left _ _

theorem joinSlash_ne_empty (x : String) (l : List String) (hx : x ∈ l) (hne : x ≠ "") :
    joinSlash l ≠ "" := by
  intro h
  have h1 : 0 < x.length := str_length_pos_of_ne x hne
  have h2 := length_le_joinSlash x l hx
  rw [h] at h2
  have : ("" : String).length = 0 := rfl
  omega

theorem getLastD_mem (l : List String) (h : l ≠ []) (d : String) : l.getLastD d ∈ l := by
  induction l generalizing d with
  | nil => exact absurd rfl h
  | cons a t ih =>
    cases t with
    | nil => simp
    | cons b t2 =>
      rw [List.getLastD_cons]
      exact List.mem_cons_of_mem a (ih (by simp) a)

theorem getLastD_drop (l : List String) (d : String) (k : Nat) (h : k < l.length) :
    (l.drop k).getLastD d = l.getLastD d := by
  induction l generalizing k with
  | nil => simp at h
  | cons a t ih =>
    cases k with
    | zero => rfl
    | succ k2 =>
      simp only [List.drop_succ_cons]
      have hk : k2 < t.length := by simpa using h
      rw [ih k2 hk]
      cases t with
      | nil => simp at hk
      | cons b t2 => simp [List.getLastD_cons]

theorem drop_set_succ (l : List String) (i : Nat) (b : String) :
    (l.set i b).drop (i + 1) = l.drop (i + 1) := by
  induction l generalizing i with
  | nil => rfl
  | cons a t ih =>
    cases i with
    | zero => rfl
    | succ i2 =>
      simp only [List.set_cons_succ, List.drop_succ_cons]
      exact ih i2

theorem take_set_succ (l : List String) (i : Nat) (b : String) (h : i < l.length) :
    (l.set i b).take (i + 1) = l.take i ++ [b] := by
  induction l generalizing i with
  | nil => simp at h
  | cons a t ih =>
    cases i with
    | zero => rfl
    | succ i2 =>
      simp only [List.set_cons_succ, List.take_succ_cons]
      rw [ih i2 (by simpa using h)]
      rfl

theorem findAtIdx_eq_some_of (p : String → Bool) (l : List String) (i : Nat)
    (hi : i < l.length) (hp : p (l.getD i "") = true)
    (hmin : ∀ j, j < i → p (l.getD j "") = false) :
    findAtIdx p l = some i := by
  induction l generalizing i with
  | nil => simp at hi
  | cons a t ih =>
    cases i with
    | zero =>
      simp only [List.getD_cons_zero] at hp
      simp [findAtIdx, hp]
    | succ i2 =>
      have ha : p a = false := by
        have := hmin 0 (Nat.succ_pos _)
        simpa using this
      have ht : findAtIdx p t = some i2 :=
        ih i2 (by simpa using hi) (by simpa using hp)
          (fun j hj => by simpa using hmin (j + 1) (by omega))
      simp [findAtIdx, ha, ht]

theorem findAtIdx_eq_none_iff (p : String → Bool) (l : List String) :
    findAtIdx p l = none ↔ ∀ x ∈ l, p x = false := by
  induction l with
  | nil => simp [findAtIdx]
  | cons a t ih =>
    by_cases ha : p a
    · simp [findAtIdx, ha]
    · have ha2 : p a = false := by simpa using ha
      constructor
      · intro h x hx
        have ht : findAtIdx p t = none := by
          by_contra hc
          rcases Option.ne_none_iff_exists.mp hc with ⟨k, hk⟩
          simp [findAtIdx, ha2, ← hk] at h
        rcases List.mem_cons.mp hx with rfl | hx2
        · exact ha2
        · exact (ih.mp ht) x hx2
      · intro h
        have ht : findAtIdx p t = none := ih.mpr (fun x hx => h x (by simp [hx]))
        simp [findAtIdx, ha2, ht]

theorem findAtIdx_some_spec (p : String → Bool) (l : List String) (i : Nat)
    (h : findAtIdx p l = some i) :
    i < l.length ∧ p (l.getD i "") = true ∧ ∀ j, j < i → p (l.getD j "") = false := by
  induction l generalizing i with
  | nil => simp [findAtIdx] at h
  | cons a t ih =>
    by_cases ha : p a
    · have : (some 0 : Option Nat) = some i := by simpa [findAtIdx, ha] using h
      have hi : i = 0 := by
        cases this
        rfl
      subst hi
      exact ⟨Nat.succ_pos _, by simpa using ha, fun j hj => by omega⟩
    · have ha2 : p a = false := by simpa using ha
      have h2 : (findAtIdx p t).map (fun k => k + 1) = some i := by
        simpa [findAtIdx, ha2] using h
      rcases Option.map_eq_some'.mp h2 with ⟨k, hk, hik⟩
      subst hik
      obtain ⟨h1, hgd, h3⟩ := ih k hk
      refine ⟨by simpa using h1, by simpa using hgd, ?_⟩
      intro j hj
      cases j with
      | zero => simpa using ha2
      | succ j2 => simpa using h3 j2 (by omega)

theorem dropWhile_ne_nil_of_mem {α : Type} (p : α → Bool) (l : List α) (x : α)
    (hx : x ∈ l) (hp : p x = false) : l.dropWhile p ≠ [] := by
  induction l with
  | nil => cases hx
  | cons a t ih =>
    rw [List.dropWhile_cons]
    by_cases hpa : p a
    · rw [if_pos hpa]
      rcases List.mem_cons.mp hx with rfl | h2
      · rw [hp] at hpa
        cases hpa
      · exact ih h2
    · rw [if_neg hpa]
      simp

theorem head_dropWhile_false {α : Type} (p : α → Bool) (l : List α) (c : α) (t : List α)
    (h : l.dropWhile p = c :: t) : p c = false := by
  induction l with
  | nil => simp [List.dropWhile] at h
  | cons a l2 ih =>
    rw [List.dropWhile_cons] at h
    by_cases hpa : p a
    · rw [if_pos hpa] at h
      exact ih h
    · rw [if_neg hpa] at h
      cases h
      simpa using hpa

/-- Decomposition of a segment containing `'@'` into the parts before and
after its last `'@'`: this pins down what `afterLastAt`/`beforeLastAt`
compute. -/
theorem at_decomp (s : String) (h : '@' ∈ s.data) :
    s.data = (beforeLastAt s).data ++ '@' :: (afterLastAt s).data ∧
      '@' ∉ (afterLastAt s).data := by
  have hrev : '@' ∈ s.data.reverse := List.mem_reverse.mpr h
  have hdw : s.data.reverse.dropWhile (fun c => c ≠ '@') ≠ [] :=
    dropWhile_ne_nil_of_mem _ _ '@' hrev (by simp)
  rcases hc : s.data.reverse.dropWhile (fun c => c ≠ '@') with _ | ⟨c, t⟩
  · exact absurd hc hdw
  · have hch : (fun c => decide (c ≠ '@')) c = false := head_dropWhile_false _ _ c t hc
    have hceq : c = '@' := by simpa using hch
    subst hceq
    have hsplit : s.data.reverse.takeWhile (fun c => c ≠ '@') ++ ('@' :: t) = s.data.reverse := by
      rw [← hc]
      exact List.takeWhile_append_dropWhile _ _
    have hs : t.reverse ++ '@' :: (s.data.reverse.takeWhile (fun c => c ≠ '@')).reverse
        = s.data := by
      have h2 := congrArg List.reverse hsplit
      rw [List.reverse_append, List.reverse_cons, List.reverse_reverse] at h2
      rw [← List.singleton_append, ← List.append_assoc]
      exact h2
    constructor
    · show s.data = ((s.data.reverse.dropWhile (fun c => c ≠ '@')).drop 1).reverse ++
        '@' :: (s.data.reverse.takeWhile (fun c => c ≠ '@')).reverse
      rw [hc]
      exact hs.symm
    · intro hmem
      have hmem2 : '@' ∈ s.data.reverse.takeWhile (fun c => c ≠ '@') := by
        have : (afterLastAt s).data =
            (s.data.reverse.takeWhile (fun c => c ≠ '@')).reverse := rfl
        rw [this] at hmem
        exact List.mem_reverse.mp hmem
      have := List.mem_takeWhile_imp hmem2
      simp at this

theorem lastIndexAux_some_spec (s sub : List Char) (k pos : Nat)
    (h : lastIndexAux s sub k = some pos) :
    pos ≤ k ∧ sub.isPrefixOf (s.drop pos) = true ∧
      ∀ j, pos < j → j ≤ k → sub.isPrefixOf (s.drop j) = false := by
  induction k with
  | zero =>
    cases hb : sub.isPrefixOf s with
    | true =>
      rw [lastIndexAux, if_pos hb] at h
      cases h
      exact ⟨Nat.le_refl _, by simpa using hb, fun j h1 h2 => by omega⟩
    | false =>
      rw [lastIndexAux, if_neg (by simp [hb])] at h
      cases h
  | succ k2 ih =>
    cases hb : sub.isPrefixOf (s.drop (k2 + 1)) with
    | true =>
      rw [lastIndexAux, if_pos hb] at h
      cases h
      exact ⟨Nat.le_refl _, hb, fun j h1 h2 => by omega⟩
    | false =>
      rw [lastIndexAux, if_neg (by simp [hb])] at h
      obtain ⟨h1, h2, h3⟩ := ih h
      refine ⟨by omega, h2, ?_⟩
      intro j hj1 hj2
      by_cases hje : j = k2 + 1
      · subst hje
        exact hb
      · exact h3 j hj1 (by omega)

theorem lastIndexAux_isSome_of (s sub : List Char) (k pos : Nat)
    (hpos : pos ≤ k) (h : sub.isPrefixOf (s.drop pos) = true) :
    (lastIndexAux s sub k).isSome := by
  induction k with
  | zero =>
    have hz : pos = 0 := by omega
    subst hz
    rw [List.drop_zero] at h
    rw [lastIndexAux, if_pos h]
    rfl
  | succ k2 ih =>
    cases hb : sub.isPrefixOf (s.drop (k2 + 1)) with
    | true =>
      rw [lastIndexAux, if_pos hb]
      rfl
    | false =>
      rw [lastIndexAux, if_neg (by simp [hb])]
      have hpk : pos ≤ k2 := by
        by_cases hje : pos = k2 + 1
        · subst hje
          rw [h] at hb
          cases hb
        · omega
      exact ih hpk

/-- `lastIndexOfStr` finds an occurrence and no later one (for a non-empty
needle, at any later position whatsoever). -/
theorem lastIndexOfStr_spec (s sub : String) (pos : Nat) (hsub : sub ≠ "")
    (h : lastIndexOfStr s sub = some pos) :
    sub.data.isPrefixOf (s.data.drop pos) = true ∧
      ∀ j, pos < j → sub.data.isPrefixOf (s.data.drop j) = false := by
  obtain ⟨h1, h2, h3⟩ := lastIndexAux_some_spec s.data sub.data s.data.length pos h
  refine ⟨h2, ?_⟩
  intro j hj
  by_cases hjle : j ≤ s.data.length
  · exact h3 j hj hjle
  · have hdrop : s.data.drop j = [] := List.drop_eq_nil_of_le (by omega)
    rw [hdrop]
    have hne : sub.data ≠ [] := fun hc => hsub ((str_eq_empty_iff sub).mpr hc)
    rcases hd : sub.data with _ | ⟨c, t⟩
    · exact absurd hd hne
    · rfl

theorem prefix_drop_lt_length (s sub : List Char) (pos : Nat) (hsub : sub ≠ [])
    (h : sub.isPrefixOf (s.drop pos) = true) : pos < s.length := by
  by_contra hc
  have hd2 : s.drop pos = [] := List.drop_eq_nil_of_le (by omega)
  rw [hd2] at h
  rcases hd : sub with _ | ⟨c, t⟩
  · exact absurd hd hsub
  · rw [hd] at h
    simp [List.isPrefixOf] at h

theorem strFrom_ne_empty (s : String) (pos : Nat) (h : pos < s.data.length) :
    strFrom s pos ≠ "" := by
  intro hc
  have hdata : s.data.drop pos = [] := (str_eq_empty_iff _).mp hc
  have hlen := congrArg List.length hdata
  rw [List.length_drop] at hlen
  simp only [List.length_nil] at hlen
  omega

theorem locateStep_cases (sp acc x : String) :
    (locateStep sp acc x = x ∧ hasSuffix sp x = true ∧ acc.length < x.length) ∨
      (locateStep sp acc x = acc ∧
        (hasSuffix sp x = true → x.length ≤ acc.length)) := by
  unfold locateStep
  cases hb : hasSuffix sp x with
  | false =>
    right
    constructor
    · simp
    · intro hc
      cases hc
  | true =>
    by_cases hl : acc.length < x.length
    · left
      exact ⟨by simp [hl], rfl, hl⟩
    · right
      exact ⟨by simp [hl], fun _ => by omega⟩

theorem locate_foldl_spec (sp : String) (l : List String) (acc : String) :
    (∀ x ∈ l, hasSuffix sp x = true →
        x.length ≤ (l.foldl (fun a r => locateStep sp a r) acc).length) ∧
    ((l.foldl (fun a r => locateStep sp a r) acc) = acc ∨
      ((l.foldl (fun a r => locateStep sp a r) acc) ∈ l ∧
        hasSuffix sp (l.foldl (fun a r => locateStep sp a r) acc) = true)) ∧
    acc.length ≤ (l.foldl (fun a r => locateStep sp a r) acc).length := by
  induction l generalizing acc with
  | nil =>
    refine ⟨fun x hx => absurd hx (List.not_mem_nil x), Or.inl rfl, Nat.le_refl _⟩
  | cons a t ih =>
    obtain ⟨ih1, ih2, ih3⟩ := ih (locateStep sp acc a)
    have hfold : (a :: t).foldl (fun a r => locateStep sp a r) acc =
        t.foldl (fun a r => locateStep sp a r) (locateStep sp acc a) := rfl
    rcases locateStep_cases sp acc a with ⟨heq, hsuf, hlt⟩ | ⟨heq, hle⟩
    · refine ⟨?_, ?_, ?_⟩
      · intro x hx hxs
        rcases List.mem_cons.mp hx with rfl | hx2
        · rw [hfold]
          calc x.length = (locateStep sp acc x).length := by rw [heq]
            _ ≤ _ := ih3
        · rw [hfold]
          exact ih1 x hx2 hxs
      · rw [hfold]
        rcases ih2 with he | ⟨hm, hs⟩
        · right
          rw [he, heq]
          exact ⟨List.mem_cons_self a t, hsuf⟩
        · right
          exact ⟨List.mem_cons_of_mem a hm, hs⟩
      · rw [hfold]
        calc acc.length ≤ (locateStep sp acc a).length := by rw [heq]; omega
          _ ≤ _ := ih3
    · refine ⟨?_, ?_, ?_⟩
      · intro x hx hxs
        rcases List.mem_cons.mp hx with rfl | hx2
        · rw [hfold]
          calc x.length ≤ acc.length := hle hxs
            _ = (locateStep sp acc x).length := by rw [heq]
            _ ≤ _ := ih3
        · rw [hfold]
          exact ih1 x hx2 hxs
      · rw [hfold]
        rcases ih2 with he | ⟨hm, hs⟩
        · left
          rw [he, heq]
        · right
          exact ⟨List.mem_cons_of_mem a hm, hs⟩
      · rw [hfold]
        calc acc.length = (locateStep sp acc a).length := by rw [heq]
          _ ≤ _ := ih3

theorem suffix_unique (sp f g : String) (hf : hasSuffix sp f = true)
    (hg : hasSuffix sp g = true) (hlen : f.length = g.length) : f = g := by
  have hf2 : f.data <:+ sp.data := by simpa [hasSuffix] using hf
  have hg2 : g.data <:+ sp.data := by simpa [hasSuffix] using hg
  obtain ⟨t1, ht1⟩ := hf2
  obtain ⟨t2, ht2⟩ := hg2
  have hl : f.data.length = g.data.length := hlen
  have happ : t1 ++ f.data = t2 ++ g.data := by rw [ht1, ht2]
  have := List.append_inj' happ hl
  exact String.ext this.2

theorem str_length_zero_eq (s : String) (h : s.length = 0) : s = "" := by
  have : s.data.length = 0 := h
  exact (str_eq_empty_iff s).mpr (List.length_eq_zero.mp this)

theorem locate_some_spec (files : List String) (sp f : String)
    (h : locate files sp = some f) :
    f ∈ files ∧ hasSuffix sp f = true ∧
      ∀ g ∈ files, hasSuffix sp g = true → g.length ≤ f.length := by
  unfold locate at h
  by_cases hz : files.foldl (fun a r => locateStep sp a r) "" = ""
  · rw [if_pos hz] at h
    cases h
  · rw [if_neg hz] at h
    have hf : files.foldl (fun a r => locateStep sp a r) "" = f := by
      cases h
      rfl
    obtain ⟨h1, h2, _⟩ := locate_foldl_spec sp files ""
    rcases h2 with he | ⟨hm, hs⟩
    · exact absurd he hz
    · rw [hf] at hm hs
      refine ⟨hm, hs, ?_⟩
      intro g hg hgs
      have := h1 g hg hgs
      rwa [hf] at this

theorem locate_none_iff (files : List String) (sp : String)
    (hne : ∀ f ∈ files, f ≠ "") :
    locate files sp = none ↔ ∀ f ∈ files, hasSuffix sp f = false := by
  unfold locate
  constructor
  · intro h f hf
    by_cases hz : files.foldl (fun a r => locateStep sp a r) "" = ""
    · obtain ⟨h1, _, _⟩ := locate_foldl_spec sp files ""
      cases hb : hasSuffix sp f with
      | false => rfl
      | true =>
        have := h1 f hf hb
        rw [hz] at this
        have hf0 : f.length = 0 := by
          have : ("" : String).length = 0 := rfl
          omega
        exact absurd (str_length_zero_eq f hf0) (hne f hf)
    · rw [if_neg hz] at h
      cases h
  · intro h
    obtain ⟨_, h2, _⟩ := locate_foldl_spec sp files ""
    rcases h2 with he | ⟨hm, hs⟩
    · rw [if_pos he]
    · rw [h _ hm] at hs
      cases hs

/-! ### Claim theorems -/

/-- C10: when content is written for a resolved `SourceSpec` with a
non-empty `Repo`, the revision discovered in the recorded path (the
spec's `Revision`) takes precedence over the caller-supplied revision;
the caller's revision is used only when the spec's `Revision` is empty,
and the literal `"latest"` only when both are empty. -/
theorem c10_revision_precedence (s : SourceSpec) (revision : String) (h : s.Repo ≠ "") :
    (s.Revision ≠ "" → s.writeContent revision = .source s.Repo s.Revision s.RelativePath) ∧
    (s.Revision = "" → revision ≠ "" →
      s.writeContent revision = .source s.Repo revision s.RelativePath) ∧
    (s.Revision = "" → revision = "" →
      s.writeContent revision = .source s.Repo "latest" s.RelativePath) := by
  refine ⟨?_, ?_, ?_⟩
  · intro h1
    simp [SourceSpec.writeContent, h, h1]
  · intro h1 h2
    simp [SourceSpec.writeContent, h, h1, h2]
  · intro h1 h2
    simp [SourceSpec.writeContent, h, h1, h2]

/-- Witness for C10 at a concrete spec and caller revision. -/
theorem c10_witness :
    ((⟨"r", "p", "v"⟩ : SourceSpec).Repo ≠ "") ∧
    ((⟨"r", "p", "v"⟩ : SourceSpec).Revision ≠ "") ∧
    ((⟨"r", "p", "v"⟩ : SourceSpec).writeContent "u" = .source "r" "v" "p") :=
  ⟨by decide, by decide,
    (c10_revision_precedence ⟨"r", "p", "v"⟩ "u" (by decide)).1 (by decide)⟩

/-- C2 (failing input): with symbol `"a.b/c/d/e/f/g.h"` (six qualifier
parts, three of them left after the hosted-repository step) and the
single-segment path `"x.go"`, the Go code computes
`startIndex = 1 - 3 - 1 = -3` and the slice `pathParts[startIndex:]`
panics at run time; the resolver is not total for non-empty symbols, as
the claim (and the spec) state it is. -/
theorem c2_panic_on_short_path :
    resolveImportPath "a.b/c/d/e/f/g.h" "x.go" = .panicSliceOutOfRange ∧
    (∀ s : SourceSpec, ResolveResult.panicSliceOutOfRange ≠ .ok s) := by
  constructor
  · decide
  · intro s h
    cases h

/-- C3 (counterexample): the root file `"bc.go"` is accepted as a match
for a recorded path ending in `"abc.go"` — the walk's check is a raw
`strings.HasSuffix`, with no look at the character preceding the match —
and `locate` even returns it.  The claim states this must never match. -/
theorem c3_counterexample :
    locate ["bc.go"] "x/abc.go" = some "bc.go" ∧
    hasSuffix "x/abc.go" "bc.go" = true := by
  constructor
  · decide
  · decide

/-- C3 (amended): a file under the root is accepted by the locator as a
candidate exactly when the recorded path ends with its root-relative path
as a raw string suffix — there is no path-separator check before the
match.  Soundness: anything `locate` returns is such a raw suffix from
the walked list; completeness: if any walked (non-empty) relative path is
a raw suffix, `locate` reports a match. -/
theorem c3_raw_suffix_match (files : List String) (sp f : String) :
    (locate files sp = some f → f ∈ files ∧ hasSuffix sp f = true) ∧
    (f ∈ files → f ≠ "" → hasSuffix sp f = true → locate files sp ≠ none) := by
  constructor
  · intro h
    obtain ⟨h1, h2, _⟩ := locate_some_spec files sp f h
    exact ⟨h1, h2⟩
  · intro hmem hne hsuf hcon
    unfold locate at hcon
    by_cases hz : files.foldl (fun a r => locateStep sp a r) "" = ""
    · have hlen := (locate_foldl_spec sp files "").1 f hmem hsuf
      rw [hz] at hlen
      have hz2 : ("" : String).length = 0 := rfl
      exact absurd (str_length_zero_eq f (by omega)) hne
    · rw [if_neg hz] at hcon
      cases hcon

/-- Witness for C3's amended theorem at the counterexample input. -/
theorem c3_witness :
    (("bc.go" ∈ (["bc.go"] : List String)) ∧ hasSuffix "x/abc.go" "bc.go" = true) ∧
    locate ["bc.go"] "x/abc.go" ≠ none :=
  ⟨(c3_raw_suffix_match ["bc.go"] "x/abc.go" "bc.go").1 (by decide),
    (c3_raw_suffix_match ["bc.go"] "x/abc.go" "bc.go").2 (by decide) (by decide) (by decide)⟩

/-- C8 (failing input): `writeStdLibGo` never inspects the error returned
by `os.Open` (the `err` from line 178 is shadowed and unchecked); when
the standard-library file does not exist the open error (`notExist`) is
dropped, and the caller instead receives `os.ErrInvalid` from copying the
nil file handle.  The open error is therefore not propagated, contrary to
the claim. -/
theorem c8_open_error_replaced :
    writeStdLibGo (some "/goroot") (fun _ => none) "runtime/proc.go" =
      .error .invalid ∧
    (osOpen (fun _ => none)
      (trimSpaceStr "/goroot" ++ "/src/" ++ "runtime/proc.go")).2 = some .notExist ∧
    (Except.error StdErr.invalid : Except StdErr (List Nat)) ≠ .error .notExist := by
  refine ⟨rfl, by decide, ?_⟩
  intro h
  exact StdErr.noConfusion (Except.error.inj h)

/-- Concrete module snapshot used to evaluate the handler: repository
`"r"` materializes to a single file `a.go` with bytes `[1, 2, 3]`. -/
def demoDownload : String → String → Option (List (String × List Nat)) :=
  fun repo _ => if repo = "r" then some [("a.go", [1, 2, 3])] else none

/-- C9 (failing input): on a successful retrieval the handler writes the
located file's bytes and then executes `fmt.Fprintf(w, "hello\n")`, so
the response body is the file's bytes with `"hello\n"` appended — not
exactly the raw file bytes as the claim states. -/
theorem c9_hello_appended :
    handleSourceGo demoDownload "r" "" "x/a.go" =
      ⟨200, [1, 2, 3] ++ strBytes ("hello" ++ "\n")⟩ ∧
    [1, 2, 3] ++ strBytes ("hello" ++ "\n") ≠ [1, 2, 3] := by
  constructor
  · decide
  · decide

/-- C1: for every rawPath that does not begin with `"/"` and whose first
`'@'`-marked segment sits at index `i`, `resolveImportPath` returns
immediately for any symbol (the symbol is not consulted), with `Repo` the
join of segments `0..i` (the `i`-th truncated before its last `'@'`),
`Revision` the substring of that segment after its last `'@'`, and
`RelativePath` the join of the segments after index `i`.  The strings `b`
and `a` are characterized as the parts of the segment before and after
its last `'@'` by the decomposition equation and by `a` being
`'@'`-free. -/
theorem c1_direct_form (function path : String) (i : Nat)
    (h0 : startsWithSlash path = false)
    (hi : i < (splitSlash path).length)
    (hat : containsChar ((splitSlash path).getD i "") '@' = true)
    (hfirst : ∀ j, j < i → containsChar ((splitSlash path).getD j "") '@' = false) :
    ∃ b a : String,
      ((splitSlash path).getD i "").data = b.data ++ '@' :: a.data ∧
      '@' ∉ a.data ∧
      resolveImportPath function path =
        .ok ⟨joinSlash ((splitSlash path).take i ++ [b]),
             joinSlash ((splitSlash path).drop (i + 1)), a⟩ := by
  have hfind : findAtIdx (fun s => containsChar s '@') (splitSlash path) = some i :=
    findAtIdx_eq_some_of _ _ i hi hat hfirst
  have hdec := at_decomp ((splitSlash path).getD i "") (by simpa [containsChar] using hat)
  refine ⟨beforeLastAt ((splitSlash path).getD i ""),
    afterLastAt ((splitSlash path).getD i ""), hdec.1, hdec.2, ?_⟩
  simp only [resolveImportPath, hfind]
  rw [if_pos h0, take_set_succ _ _ _ hi, drop_set_succ]

/-- Witness for C1 at symbol `""` and path `"a@v1/b.go"`. -/
theorem c1_witness :
    startsWithSlash "a@v1/b.go" = false ∧
    (∃ b a : String,
      ((splitSlash "a@v1/b.go").getD 0 "").data = b.data ++ '@' :: a.data ∧
      '@' ∉ a.data ∧
      resolveImportPath "" "a@v1/b.go" =
        .ok ⟨joinSlash ((splitSlash "a@v1/b.go").take 0 ++ [b]),
             joinSlash ((splitSlash "a@v1/b.go").drop (0 + 1)), a⟩) :=
  ⟨by decide,
    c1_direct_form "" "a@v1/b.go" 0 (by decide) (by decide) (by decide)
      (fun j hj => absurd hj (Nat.not_lt_zero j))⟩

/-- C6: among the walked files the locator returns the matching candidate
with the longest relative path, and fails (the `io.EOF` not-found result,
modelled as `none`) exactly when no file matches.  Two distinct matches of
equal length cannot exist — equal-length suffixes of one string coincide —
so the returned candidate is trivially also the lexicographically smallest
among the matches of maximal length.  The hypothesis records that a walk
never yields an empty relative path. -/
theorem c6_longest_match (files : List String) (sp : String)
    (hne : ∀ f ∈ files, f ≠ "") :
    (locate files sp = none ↔ ∀ f ∈ files, hasSuffix sp f = false) ∧
    (∀ f, locate files sp = some f →
      f ∈ files ∧ hasSuffix sp f = true ∧
      (∀ g ∈ files, hasSuffix sp g = true → g.length ≤ f.length) ∧
      (∀ g ∈ files, hasSuffix sp g = true → g.length = f.length → f = g ∧ f ≤ g)) := by
  refine ⟨locate_none_iff files sp hne, ?_⟩
  intro f hf
  obtain ⟨h1, h2, h3⟩ := locate_some_spec files sp f hf
  refine ⟨h1, h2, h3, ?_⟩
  intro g hg hgs hlen
  have heq : g = f := suffix_unique sp g f hgs h2 hlen
  exact ⟨heq.symm, le_of_eq heq.symm⟩

/-- Witness for C6 at a two-file snapshot: the deeper match wins. -/
theorem c6_witness :
    (∀ f ∈ (["a/b.go", "b.go"] : List String), f ≠ "") ∧
    (locate ["a/b.go", "b.go"] "/x/a/b.go" = none ↔
      ∀ f ∈ (["a/b.go", "b.go"] : List String), hasSuffix "/x/a/b.go" f = false) ∧
    (∀ f, locate ["a/b.go", "b.go"] "/x/a/b.go" = some f →
      f ∈ (["a/b.go", "b.go"] : List String) ∧ hasSuffix "/x/a/b.go" f = true ∧
      (∀ g ∈ (["a/b.go", "b.go"] : List String),
        hasSuffix "/x/a/b.go" g = true → g.length ≤ f.length) ∧
      (∀ g ∈ (["a/b.go", "b.go"] : List String),
        hasSuffix "/x/a/b.go" g = true → g.length = f.length → f = g ∧ f ≤ g)) ∧
    locate ["a/b.go", "b.go"] "/x/a/b.go" = some "a/b.go" :=
  ⟨by decide,
    (c6_longest_match ["a/b.go", "b.go"] "/x/a/b.go" (by decide)).1,
    (c6_longest_match ["a/b.go", "b.go"] "/x/a/b.go" (by decide)).2,
    by decide⟩

theorem resolveAfterScan_stdlib (function path : String) (pathParts : List String)
    (revision relativePath : String) (pos : Nat)
    (hfn : function ≠ "")
    (hdot : containsChar ((stripFunctionName (splitSlash function)).headD "") '.' = false)
    (hocc : lastIndexOfStr path ((stripFunctionName (splitSlash function)).headD "") = some pos) :
    resolveAfterScan function path pathParts revision relativePath =
      .ok ⟨"", strFrom path pos, ""⟩ := by
  simp only [resolveAfterScan, if_neg hfn, hdot, hocc, eq_self_iff_true, if_true]

/-- C4 (counterexample): with symbol `"runtime.gopark"` and path
`"/src/runtime/other/runtime.go"`, the source's `strings.LastIndex` finds
the raw substring `"runtime"` inside the final segment `"runtime.go"` and
returns `RelativePath = "runtime.go"`, while the claim's segment-aligned
reading (the last occurrence of `"runtime"` as a whole path segment)
demands `"runtime/other/runtime.go"`. -/
theorem c4_counterexample :
    resolveImportPath "runtime.gopark" "/src/runtime/other/runtime.go" =
      .ok ⟨"", "runtime.go", ""⟩ ∧
    specStdlibRelPath "/src/runtime/other/runtime.go" "runtime" =
      some "runtime/other/runtime.go" ∧
    ("runtime.go" : String) ≠ "runtime/other/runtime.go" := by
  refine ⟨by decide, by decide, by decide⟩

/-- C4 (amended): for every non-empty symbol whose first stripped
qualifier part is non-empty and contains no `'.'`, provided the direct
form did not short-circuit (the path is absolute, or no segment carries
an `'@'`) and the part occurs somewhere in `rawPath` as a raw substring,
`resolveImportPath` classifies the input as standard library: it returns
empty `Repo` and `Revision`, and `RelativePath` is the portion of
`rawPath` from the last raw occurrence of that part onward (`pos` is an
occurrence and no later position is one) — segment alignment is not
required. -/
theorem c4_stdlib_raw_lastindex (function path : String)
    (hfp0 : (stripFunctionName (splitSlash function)).headD "" ≠ "")
    (hdot : containsChar ((stripFunctionName (splitSlash function)).headD "") '.' = false)
    (hocc : (lastIndexOfStr path ((stripFunctionName (splitSlash function)).headD "")).isSome = true)
    (hdirect : startsWithSlash path = true ∨
      findAtIdx (fun s => containsChar s '@') (splitSlash path) = none) :
    ∃ pos,
      lastIndexOfStr path ((stripFunctionName (splitSlash function)).headD "") = some pos ∧
      ((stripFunctionName (splitSlash function)).headD "").data.isPrefixOf
        (path.data.drop pos) = true ∧
      (∀ j, pos < j →
        ((stripFunctionName (splitSlash function)).headD "").data.isPrefixOf
          (path.data.drop j) = false) ∧
      resolveImportPath function path = .ok ⟨"", strFrom path pos, ""⟩ := by
  have hfn : function ≠ "" := fun he => hfp0 (by rw [he]; rfl)
  obtain ⟨pos, hpos⟩ := Option.isSome_iff_exists.mp hocc
  obtain ⟨hpre, hlater⟩ :=
    lastIndexOfStr_spec path ((stripFunctionName (splitSlash function)).headD "") pos hfp0 hpos
  refine ⟨pos, hpos, hpre, hlater, ?_⟩
  rcases hscan : findAtIdx (fun s => containsChar s '@') (splitSlash path) with _ | idx
  · simp only [resolveImportPath, hscan]
    exact resolveAfterScan_stdlib function path (splitSlash path) "" "" pos hfn hdot hpos
  · have hsw : startsWithSlash path = true := by
      rcases hdirect with h | h
      · exact h
      · rw [hscan] at h
        cases h
    simp only [resolveImportPath, hscan]
    rw [if_neg (by simp [hsw])]
    exact resolveAfterScan_stdlib function path _ _ _ pos hfn hdot hpos

/-- Witness for C4's amended theorem at the stdlib test vector. -/
theorem c4_witness :
    ((stripFunctionName (splitSlash "runtime.gopark")).headD "" ≠ "") ∧
    ∃ pos,
      lastIndexOfStr "/go/src/runtime/proc.go"
        ((stripFunctionName (splitSlash "runtime.gopark")).headD "") = some pos ∧
      ((stripFunctionName (splitSlash "runtime.gopark")).headD "").data.isPrefixOf
        ("/go/src/runtime/proc.go".data.drop pos) = true ∧
      (∀ j, pos < j →
        ((stripFunctionName (splitSlash "runtime.gopark")).headD "").data.isPrefixOf
          ("/go/src/runtime/proc.go".data.drop j) = false) ∧
      resolveImportPath "runtime.gopark" "/go/src/runtime/proc.go" =
        .ok ⟨"", strFrom "/go/src/runtime/proc.go" 8, ""⟩ := by
  refine ⟨by decide, ?_⟩
  have h := c4_stdlib_raw_lastindex "runtime.gopark" "/go/src/runtime/proc.go"
    (by decide) (by decide) (by decide) (Or.inl (by decide))
  obtain ⟨pos, h1, h2, h3, h4⟩ := h
  have hp8 : pos = 8 := by
    have : lastIndexOfStr "/go/src/runtime/proc.go"
        ((stripFunctionName (splitSlash "runtime.gopark")).headD "") = some 8 := by decide
    rw [this] at h1
    cases h1
    rfl
  subst hp8
  exact ⟨8, h1, h2, h3, h4⟩

theorem resolveTail_big (pathParts functionParts : List String) (revision : String)
    (hlen : 3 ≤ functionParts.length)
    (hsegs : functionParts.length - 2 ≤ pathParts.length) :
    resolveTail pathParts functionParts revision "" =
      .ok ⟨joinSlash (functionParts.take 3),
           joinSlash (pathParts.drop (pathParts.length - (functionParts.length - 3) - 1)),
           revision⟩ := by
  simp only [resolveTail, if_pos hlen, List.length_drop]
  rw [if_pos trivial, if_neg (by omega)]

/-- C5 (counterexample): symbol `"c.d/e/f.g"` has first part containing a
`'.'` and stripped qualifier count 3, and the absolute path
`"/a/b@v1/x/y.go"` is not resolved by the direct form; the claim demands
`RelativePath` = the trailing `0 + 1 = 1` segments, i.e. `"y.go"`, but the
version-marker scan has already fixed `RelativePath = "x/y.go"` (the
segments after the `'@'` segment), which step 6 then never recomputes. -/
theorem c5_counterexample :
    resolveImportPath "c.d/e/f.g" "/a/b@v1/x/y.go" =
      .ok ⟨"c.d/e/f", "x/y.go", "v1"⟩ ∧
    ("x/y.go" : String) ≠ "y.go" :=
  ⟨by decide, by decide⟩

/-- C5 (amended): for every symbol whose first stripped qualifier part
contains a `'.'` and whose stripped qualifier count `L` is at least 3,
and every rawPath with no `'@'` in any segment (so neither the direct
form nor the marker scan interferes) and at least `L - 2` segments (so
the slice start is not negative), `resolveImportPath` sets `Repo` to the
join of the first 3 qualifier parts and `RelativePath` to the trailing
`N = (L - 3) + 1` segments of rawPath, with empty `Revision`. -/
theorem c5_hosted_reconstruction (function path : String)
    (hdot : containsChar ((stripFunctionName (splitSlash function)).headD "") '.' = true)
    (hlen : 3 ≤ (stripFunctionName (splitSlash function)).length)
    (hnoat : ∀ seg ∈ splitSlash path, containsChar seg '@' = false)
    (hsegs : (stripFunctionName (splitSlash function)).length - 2 ≤ (splitSlash path).length) :
    resolveImportPath function path =
      .ok ⟨joinSlash ((stripFunctionName (splitSlash function)).take 3),
           joinSlash ((splitSlash path).drop
             ((splitSlash path).length -
               ((stripFunctionName (splitSlash function)).length - 3) - 1)),
           ""⟩ ∧
    ((splitSlash path).drop
        ((splitSlash path).length -
          ((stripFunctionName (splitSlash function)).length - 3) - 1)).length =
      (stripFunctionName (splitSlash function)).length - 3 + 1 := by
  have hfn : function ≠ "" := by
    intro he
    rw [he] at hlen
    exact absurd hlen (by decide)
  have hscan : findAtIdx (fun s => containsChar s '@') (splitSlash path) = none :=
    (findAtIdx_eq_none_iff _ _).mpr hnoat
  constructor
  · simp only [resolveImportPath, hscan]
    simp only [resolveAfterScan, if_neg hfn, hdot]
    rw [if_neg (by simp)]
    exact resolveTail_big (splitSlash path) (stripFunctionName (splitSlash function)) "" hlen hsegs
  · rw [List.length_drop]
    omega

/-- Witness for C5's amended theorem at a four-qualifier symbol. -/
theorem c5_witness :
    resolveImportPath "a.b/c/d/e.f" "p/q/r.go" =
      .ok ⟨joinSlash ((stripFunctionName (splitSlash "a.b/c/d/e.f")).take 3),
           joinSlash ((splitSlash "p/q/r.go").drop
             ((splitSlash "p/q/r.go").length -
               ((stripFunctionName (splitSlash "a.b/c/d/e.f")).length - 3) - 1)),
           ""⟩ ∧
    ((splitSlash "p/q/r.go").drop
        ((splitSlash "p/q/r.go").length -
          ((stripFunctionName (splitSlash "a.b/c/d/e.f")).length - 3) - 1)).length =
      (stripFunctionName (splitSlash "a.b/c/d/e.f")).length - 3 + 1 :=
  c5_hosted_reconstruction "a.b/c/d/e.f" "p/q/r.go" (by decide) (by decide)
    (by decide) (by decide)

theorem splitOnChar_ne_nil (sep : Char) (l : List Char) : splitOnChar sep l ≠ [] := by
  cases l with
  | nil => simp [splitOnChar]
  | cons c rest =>
    rw [splitOnChar]
    rcases h : splitOnChar sep rest with _ | ⟨a, t⟩
    · simp
    · by_cases hc : c = sep
      · simp [hc]
      · simp [hc]

theorem splitSlash_ne_nil (s : String) : splitSlash s ≠ [] := by
  unfold splitSlash
  intro h
  exact splitOnChar_ne_nil '/' s.data (List.map_eq_nil_iff.mp h)

theorem drop_ne_nil (l : List String) (k : Nat) (h : k < l.length) : l.drop k ≠ [] := by
  intro hc
  have := congrArg List.length hc
  rw [List.length_drop] at this
  simp at this
  omega

theorem getD_mem (l : List String) (i : Nat) (d : String) (h : i < l.length) :
    l.getD i d ∈ l := by
  induction l generalizing i with
  | nil => simp at h
  | cons a t ih =>
    cases i with
    | zero => simp
    | succ i2 =>
      rw [List.getD_cons_succ]
      exact List.mem_cons_of_mem a (ih i2 (by simpa using h))

theorem getD_length_sub_one (l : List String) (d : String) (h : l ≠ []) :
    l.getD (l.length - 1) d = l.getLastD d := by
  induction l generalizing d with
  | nil => exact absurd rfl h
  | cons a t ih =>
    cases t with
    | nil => rfl
    | cons b t2 =>
      have hlen : (a :: b :: t2).length - 1 = (b :: t2).length - 1 + 1 := by
        simp [List.length_cons]
      rw [hlen, List.getD_cons_succ, ih d (by simp)]
      simp [List.getLastD_cons, List.getLastD]

theorem getLastD_set (l : List String) (i : Nat) (b d : String) (h : i + 1 < l.length) :
    (l.set i b).getLastD d = l.getLastD d := by
  have h2 : i + 1 < (l.set i b).length := by rwa [List.length_set]
  rw [← getLastD_drop (l.set i b) d (i + 1) h2, drop_set_succ, getLastD_drop l d (i + 1) h]

theorem lastIndexOfStr_empty_isSome (path : String) :
    (lastIndexOfStr path "").isSome = true := by
  show (lastIndexAux path.data [] path.data.length).isSome = true
  cases hk : path.data.length with
  | zero => simp [lastIndexAux, List.isPrefixOf]
  | succ k => simp [lastIndexAux, List.isPrefixOf]

theorem headD_mem_take3 (l : List String) (h : l ≠ []) : l.headD "" ∈ l.take 3 := by
  cases l with
  | nil => exact absurd rfl h
  | cons a t => simp [List.take_succ_cons]

theorem contains_ne_empty (s : String) (c : Char) (h : containsChar s c = true) : s ≠ "" := by
  intro he
  rw [he] at h
  simp [containsChar] at h

theorem resolveTail_ok_spec (pathParts functionParts : List String)
    (revision relativePath : String) (sp : SourceSpec)
    (hok : resolveTail pathParts functionParts revision relativePath = .ok sp) :
    sp.Revision = revision ∧
    sp.Repo = (if 3 ≤ functionParts.length then joinSlash (functionParts.take 3) else "") ∧
    ((relativePath ≠ "" ∧ sp.RelativePath = relativePath) ∨
      (relativePath = "" ∧ ∃ k, k < pathParts.length ∧
        sp.RelativePath = joinSlash (pathParts.drop k))) := by
  by_cases hrel : relativePath = ""
  · rw [resolveTail, if_pos hrel] at hok
    by_cases hg : pathParts.length <
        (if 3 ≤ functionParts.length then functionParts.drop 3 else functionParts).length + 1
    · rw [if_pos hg] at hok
      exact ResolveResult.noConfusion hok
    · rw [if_neg hg] at hok
      cases hok
      refine ⟨rfl, rfl, Or.inr ⟨hrel, ?_⟩⟩
      refine ⟨_, ?_, rfl⟩
      omega
  · rw [resolveTail, if_neg hrel] at hok
    cases hok
    exact ⟨rfl, rfl, Or.inl ⟨hrel, rfl⟩⟩

theorem joinSlash_drop_ne_empty (pathParts : List String) (k : Nat)
    (hk : k < pathParts.length) (hlast : pathParts.getLastD "" ≠ "") :
    joinSlash (pathParts.drop k) ≠ "" := by
  have hd : (pathParts.drop k).getLastD "" = pathParts.getLastD "" :=
    getLastD_drop pathParts "" k hk
  have hmem : (pathParts.drop k).getLastD "" ∈ pathParts.drop k :=
    getLastD_mem (pathParts.drop k) (drop_ne_nil pathParts k hk) ""
  exact joinSlash_ne_empty _ _ hmem (by rwa [hd])

theorem resolveAfterScan_rel_ne (function path : String) (pathParts : List String)
    (revision relativePath : String) (sp : SourceSpec)
    (hok : resolveAfterScan function path pathParts revision relativePath = .ok sp)
    (hfp : (stripFunctionName (splitSlash function)).headD "" ≠ "")
    (hlast : pathParts.getLastD "" ≠ "") :
    sp.RelativePath ≠ "" := by
  by_cases hfn : function = ""
  · rw [resolveAfterScan, if_pos hfn] at hok
    exact ResolveResult.noConfusion hok
  · simp only [resolveAfterScan, if_neg hfn] at hok
    have htail : resolveTail pathParts (stripFunctionName (splitSlash function))
        revision relativePath = .ok sp → sp.RelativePath ≠ "" := by
      intro hok2
      obtain ⟨_, _, hcase⟩ := resolveTail_ok_spec _ _ _ _ _ hok2
      rcases hcase with ⟨hne, heq⟩ | ⟨_, k, hk, heq⟩
      · rw [heq]
        exact hne
      · rw [heq]
        exact joinSlash_drop_ne_empty pathParts k hk hlast
    cases hdot : containsChar ((stripFunctionName (splitSlash function)).headD "") '.' with
    | false =>
      rw [if_pos hdot] at hok
      rcases hocc : lastIndexOfStr path ((stripFunctionName (splitSlash function)).headD "")
          with _ | pos
      · rw [hocc] at hok
        exact htail hok
      · rw [hocc] at hok
        cases hok
        show strFrom path pos ≠ ""
        obtain ⟨hpre, _⟩ := lastIndexOfStr_spec path _ pos hfp hocc
        have hdata : ((stripFunctionName (splitSlash function)).headD "").data ≠ [] :=
          fun hc => hfp ((str_eq_empty_iff _).mpr hc)
        exact strFrom_ne_empty path pos (prefix_drop_lt_length path.data _ pos hdata hpre)
    | true =>
      rw [if_neg (by rw [hdot]; simp)] at hok
      exact htail hok

theorem resolveAfterScan_repo_empty (function path : String) (pathParts : List String)
    (sp : SourceSpec)
    (hok : resolveAfterScan function path pathParts "" "" = .ok sp)
    (hrepo : sp.Repo = "") :
    (function ≠ "" ∧
      containsChar ((stripFunctionName (splitSlash function)).headD "") '.' = false ∧
      (lastIndexOfStr path ((stripFunctionName (splitSlash function)).headD "")).isSome = true) ∨
    (stripFunctionName (splitSlash function)).length < 3 := by
  by_cases hfn : function = ""
  · rw [resolveAfterScan, if_pos hfn] at hok
    exact ResolveResult.noConfusion hok
  · simp only [resolveAfterScan, if_neg hfn] at hok
    have htail : (stripFunctionName (splitSlash function)).headD "" ≠ "" →
        resolveTail pathParts (stripFunctionName (splitSlash function)) "" "" = .ok sp →
        (stripFunctionName (splitSlash function)).length < 3 := by
      intro hne hok2
      obtain ⟨_, hrepo2, _⟩ := resolveTail_ok_spec _ _ _ _ _ hok2
      by_cases h3 : 3 ≤ (stripFunctionName (splitSlash function)).length
      · rw [if_pos h3] at hrepo2
        have hmem : (stripFunctionName (splitSlash function)).headD "" ∈
            (stripFunctionName (splitSlash function)).take 3 :=
          headD_mem_take3 _ (by
            intro hc
            rw [hc] at h3
            exact absurd h3 (by decide))
        have hjoin := joinSlash_ne_empty _ _ hmem hne
        rw [hrepo2] at hrepo
        exact absurd hrepo hjoin
      · omega
    cases hdot : containsChar ((stripFunctionName (splitSlash function)).headD "") '.' with
    | false =>
      rw [if_pos hdot] at hok
      rcases hocc : lastIndexOfStr path ((stripFunctionName (splitSlash function)).headD "")
          with _ | pos
      · rw [hocc] at hok
        right
        have hne : (stripFunctionName (splitSlash function)).headD "" ≠ "" := by
          intro hc
          have hsome := lastIndexOfStr_empty_isSome path
          rw [← hc, hocc] at hsome
          cases hsome
        exact htail hne hok
      · exact Or.inl ⟨hfn, rfl, rfl⟩
    | true =>
      rw [if_neg (by rw [hdot]; simp)] at hok
      right
      have hne : (stripFunctionName (splitSlash function)).headD "" ≠ "" :=
        contains_ne_empty _ '.' hdot
      exact htail hne hok

/-- C7 (counterexample): `resolveImportPath "" "m@v1"` succeeds through
the direct form with an empty `RelativePath` — the `'@'` marker sits in
the final (and only) segment, so no segments follow it — contradicting
the claim that `RelativePath` is non-empty on every success. -/
theorem c7_counterexample :
    resolveImportPath "" "m@v1" = .ok ⟨"m", "", "v1"⟩ ∧
    SourceSpec.RelativePath ⟨"m", "", "v1"⟩ = "" :=
  ⟨by decide, rfl⟩

/-- C7 (amended): on every success of `resolveImportPath`,
(a) `RelativePath` is non-empty provided the final segment of `rawPath`
is non-empty and carries no `'@'`, and the symbol is either empty or has
a non-empty first stripped qualifier part; and
(b) when no segment of `rawPath` carries an `'@'`, `Repo` and `Revision`
are both empty only if the standard-library branch applied or the
stripped symbol has fewer than 3 qualifier parts. -/
theorem c7_invariants (function path : String) (sp : SourceSpec)
    (hok : resolveImportPath function path = .ok sp) :
    ((splitSlash path).getLastD "" ≠ "" →
      containsChar ((splitSlash path).getLastD "") '@' = false →
      (function = "" ∨ (stripFunctionName (splitSlash function)).headD "" ≠ "") →
      sp.RelativePath ≠ "") ∧
    ((∀ seg ∈ splitSlash path, containsChar seg '@' = false) →
      sp.Repo = "" → sp.Revision = "" →
      stdlibBranch function path = true ∨
        (stripFunctionName (splitSlash function)).length < 3) := by
  constructor
  · intro hlast hlastat hfp
    rcases hscan : findAtIdx (fun s => containsChar s '@') (splitSlash path) with _ | idx
    · simp only [resolveImportPath, hscan] at hok
      have hfn : function ≠ "" := by
        intro he
        rw [resolveAfterScan, if_pos he] at hok
        exact ResolveResult.noConfusion hok
      have hfp2 : (stripFunctionName (splitSlash function)).headD "" ≠ "" := by
        rcases hfp with he | h2
        · exact absurd he hfn
        · exact h2
      exact resolveAfterScan_rel_ne function path (splitSlash path) "" "" sp hok hfp2 hlast
    · obtain ⟨hidx, hat, _⟩ := findAtIdx_some_spec _ _ idx hscan
      have hne_last : idx + 1 < (splitSlash path).length := by
        by_contra hc
        have hidx_eq : idx = (splitSlash path).length - 1 := by omega
        rw [hidx_eq, getD_length_sub_one _ _ (splitSlash_ne_nil path)] at hat
        rw [hat] at hlastat
        cases hlastat
      simp only [resolveImportPath, hscan] at hok
      by_cases hsw : startsWithSlash path = false
      · rw [if_pos hsw] at hok
        cases hok
        show joinSlash (((splitSlash path).set idx
          (beforeLastAt ((splitSlash path).getD idx ""))).drop (idx + 1)) ≠ ""
        rw [drop_set_succ]
        exact joinSlash_drop_ne_empty _ _ hne_last hlast
      · rw [if_neg hsw] at hok
        have hfn : function ≠ "" := by
          intro he
          rw [resolveAfterScan, if_pos he] at hok
          exact ResolveResult.noConfusion hok
        have hfp2 : (stripFunctionName (splitSlash function)).headD "" ≠ "" := by
          rcases hfp with he | h2
          · exact absurd he hfn
          · exact h2
        have hlast2 : (((splitSlash path).set idx
            (beforeLastAt ((splitSlash path).getD idx "")))).getLastD "" ≠ "" := by
          rw [getLastD_set _ _ _ _ hne_last]
          exact hlast
        exact resolveAfterScan_rel_ne function path _ _ _ sp hok hfp2 hlast2
  · intro hnoat hrepo _hrev
    have hscan : findAtIdx (fun s => containsChar s '@') (splitSlash path) = none :=
      (findAtIdx_eq_none_iff _ _).mpr hnoat
    simp only [resolveImportPath, hscan] at hok
    rcases resolveAfterScan_repo_empty function path (splitSlash path) sp hok hrepo with
      ⟨hfn, hdot, hocc⟩ | hlt
    · left
      have hany : (splitSlash path).any (fun s => containsChar s '@') = false := by
        rw [List.any_eq_false]
        intro x hx
        simp [hnoat x hx]
      simp only [List.headD_eq_head?_getD] at hdot hocc
      simp [stdlibBranch, hany, hfn, hdot, hocc]
    · right
      exact hlt

/-- Witness for C7's amended theorem at a standard-library success. -/
theorem c7_witness :
    resolveImportPath "runtime.gopark" "/go2/src/runtime/proc.go" =
      .ok ⟨"", "runtime/proc.go", ""⟩ ∧
    SourceSpec.RelativePath ⟨"", "runtime/proc.go", ""⟩ ≠ "" ∧
    (stdlibBranch "runtime.gopark" "/go2/src/runtime/proc.go" = true ∨
      (stripFunctionName (splitSlash "runtime.gopark")).length < 3) := by
  have hok : resolveImportPath "runtime.gopark" "/go2/src/runtime/proc.go" =
      .ok ⟨"", "runtime/proc.go", ""⟩ := by decide
  have h := c7_invariants "runtime.gopark" "/go2/src/runtime/proc.go"
    ⟨"", "runtime/proc.go", ""⟩ hok
  exact ⟨hok, h.1 (by decide) (by decide) (Or.inr (by decide)),
    h.2 (by decide) rfl rfl⟩
